import Mathlib

/-!
Shallow embedding of the repository `temporal-stability-abnormalities`
(`src/pyabnorm/compute_abnorm.py`, `src/pyabnorm/vis_abnorm.py`,
`src/pyabnorm/common.py` and the orchestration scripts), together with
theorems settling the specification claims about it.

Conventions of the embedding:
* a NaN-able float is `Option ℚ` (`none` = NaN, `some x` = the value `x`);
* a 2D numpy array (`roi_data`, size number of ROIs x number of windows) is a
  row-major `List (List (Option ℚ))`;
* a boolean numpy vector is a `List Bool`;
* the imperative loop of `compute_d_rs`, which initialises an array of zeros
  and assigns one entry per window, is embedded as a fold over an explicit
  state record, so that non-mutation of the inputs is a provable statement
  rather than a modelling assumption.
-/

/-- Score of one (positive value, negative value) pair in the Mann-Whitney
form of the ROC-AUC: 1 if the positive-class value is larger, 1/2 on a tie,
0 otherwise. -/
def pair_score (s r : ℚ) : ℚ :=
  if r < s then 1 else if r = s then 1/2 else 0

/-- Mann-Whitney probability that a value drawn from `pos` exceeds a value
drawn from `neg` (ties counted 1/2): the pairwise score sum divided by the
number of pairs.  This is the standard ROC-AUC statistic named by the spec. -/
def mw_prob (pos neg : List ℚ) : ℚ :=
  ((pos.map (fun s => (neg.map (fun r => pair_score s r)).sum)).sum) /
    ((pos.length : ℚ) * (neg.length : ℚ))

/-- Model of the library call `sklearn.metrics.roc_auc_score(y_true, y_score)`
for boolean labels: the ROC-AUC with label `true` as the positive class,
which for binary labels equals the Mann-Whitney statistic
(pairs won plus half the ties, over all positive/negative pairs). -/
def roc_auc_score (y_true : List Bool) (y_score : List ℚ) : ℚ :=
  let pairs := y_true.zip y_score
  let pos := (pairs.filter (fun p => p.1)).map (fun p => p.2)
  let neg := (pairs.filter (fun p => !p.1)).map (fun p => p.2)
  mw_prob pos neg

/-- Column `i` of the ROI-by-window matrix (`roi_data[:,i]` for a rectangular
matrix whose rows are longer than `i`). -/
def mat_column (roi_data : List (List (Option ℚ))) (i : Nat) : List (Option ℚ) :=
  roi_data.map (fun row => row.getD i none)

/-- Embedding of the per-window body of `compute_d_rs`
(`compute_abnorm.py` lines 45-50): drop the NaN entries of the window
(`keep_roi = ~np.isnan(data_i)`), keep the remaining values paired with the
spared flag `!resected` (`spared_i = ~roi_is_resect[keep_roi]`). -/
def keep_pairs (roi_is_resect : List Bool) (col : List (Option ℚ)) :
    List (Bool × ℚ) :=
  (roi_is_resect.zip col).filterMap (fun p => p.2.map (fun x => (!p.1, x)))

/-- Embedding of one iteration of the window loop of `compute_d_rs`
(`compute_abnorm.py` lines 42-56): if the non-missing window still has both
classes, store the AUC with spared as the positive class, else store NaN. -/
def d_rs_window (roi_data : List (List (Option ℚ))) (roi_is_resect : List Bool)
    (i : Nat) : Option ℚ :=
  let kept := keep_pairs roi_is_resect (mat_column roi_data i)
  let spared_i := kept.map Prod.fst
  let data_i := kept.map Prod.snd
  if 0 < spared_i.count true ∧ 0 < spared_i.count false then
    some (roc_auc_score spared_i data_i)
  else
    none

/-- Program state of `compute_d_rs`: the two input arrays and the output
array `d_rs` that the loop assigns into. -/
structure DRSState where
  roi_data : List (List (Option ℚ))
  roi_is_resect : List Bool
  d_rs : List (Option ℚ)
deriving DecidableEq

/-- One iteration of the loop `for i in range(n_win)` of `compute_d_rs`:
assign `d_rs[i]` and leave everything else untouched. -/
def compute_d_rs_step (s : DRSState) (i : Nat) : DRSState :=
  { s with d_rs := s.d_rs.set i (d_rs_window s.roi_data s.roi_is_resect i) }

/-- Embedding of `compute_d_rs` (`compute_abnorm.py` lines 13-60) as a state
transformer: `d_rs = np.zeros(n_win)`; if the resection vector has both a
resected and a spared ROI (`np.sum(roi_is_resect)>0 and
np.sum(np.invert(roi_is_resect))>0`), run the window loop; otherwise
`d_rs = d_rs*np.nan`, i.e. every entry becomes NaN. -/
def compute_d_rs_run (roi_data : List (List (Option ℚ)))
    (roi_is_resect : List Bool) : DRSState :=
  let n_win := (roi_data.headD []).length
  let init : DRSState := ⟨roi_data, roi_is_resect, List.replicate n_win (some 0)⟩
  if 0 < roi_is_resect.count true ∧ 0 < roi_is_resect.count false then
    (List.range n_win).foldl compute_d_rs_step init
  else
    { init with d_rs := init.d_rs.map (fun _ => none) }

/-- Return value of `compute_d_rs`: the `d_rs` array left by the run. -/
def compute_d_rs (roi_data : List (List (Option ℚ)))
    (roi_is_resect : List Bool) : List (Option ℚ) :=
  (compute_d_rs_run roi_data roi_is_resect).d_rs

/-- Spec-side view of a window: the non-missing values of column `i` at
spared ROIs (resection flag `false`), in ROI order. -/
def spared_vals (roi_data : List (List (Option ℚ))) (roi_is_resect : List Bool)
    (i : Nat) : List ℚ :=
  (roi_is_resect.zip (mat_column roi_data i)).filterMap
    (fun p => if p.1 then none else p.2)

/-- Spec-side view of a window: the non-missing values of column `i` at
resected ROIs (resection flag `true`), in ROI order. -/
def resected_vals (roi_data : List (List (Option ℚ))) (roi_is_resect : List Bool)
    (i : Nat) : List ℚ :=
  (roi_is_resect.zip (mat_column roi_data i)).filterMap
    (fun p => if p.1 then p.2 else none)

/-- The window loop of `compute_d_rs` writes only to `d_rs`; the two input
arrays of the state are untouched by any number of iterations. -/
lemma foldl_step_fields (l : List Nat) :
    ∀ s : DRSState, (l.foldl compute_d_rs_step s).roi_data = s.roi_data ∧
      (l.foldl compute_d_rs_step s).roi_is_resect = s.roi_is_resect := by
  induction l with
  | nil => intro s; exact ⟨rfl, rfl⟩
  | cons a t ih =>
    intro s
    simpa [compute_d_rs_step] using ih (compute_d_rs_step s a)

/-- The `d_rs` array produced by the window loop is the pure fold that sets
entry `i` to `d_rs_window` of the (constant) inputs. -/
lemma foldl_step_d_rs (M : List (List (Option ℚ))) (r : List Bool) :
    ∀ (l : List Nat) (d : List (Option ℚ)),
      (l.foldl compute_d_rs_step ⟨M, r, d⟩).d_rs
        = l.foldl (fun d i => d.set i (d_rs_window M r i)) d := by
  intro l
  induction l with
  | nil => intro d; rfl
  | cons a t ih =>
    intro d
    simpa [compute_d_rs_step] using ih (d.set a (d_rs_window M r a))

/-- Setting entries never changes the length of the output array. -/
lemma foldl_set_length (f : Nat → Option ℚ) :
    ∀ (l : List Nat) (d : List (Option ℚ)),
      (l.foldl (fun d i => d.set i (f i)) d).length = d.length := by
  intro l
  induction l with
  | nil => intro d; rfl
  | cons a t ih =>
    intro d
    rw [List.foldl_cons, ih (d.set a (f a)), List.length_set]

/-- Entry `j` after folding the index list `l`: the value `f j` if `j` was
visited in bounds, the initial entry otherwise. -/
lemma foldl_set_getElem (f : Nat → Option ℚ) :
    ∀ (l : List Nat) (d : List (Option ℚ)) (j : Nat),
      (l.foldl (fun d i => d.set i (f i)) d)[j]? =
        if j ∈ l ∧ j < d.length then some (f j) else d[j]? := by
  intro l
  induction l with
  | nil => intro d j; simp
  | cons a t ih =>
    intro d j
    rw [List.foldl_cons, ih (d.set a (f a)) j, List.length_set]
    by_cases hlen : j < d.length
    · by_cases hjt : j ∈ t
      · simp [hjt, hlen]
      · rcases eq_or_ne a j with rfl | hne
        · simp [hjt, hlen, List.getElem?_set]
        · simp [hjt, hlen, List.getElem?_set, hne, List.mem_cons, Ne.symm hne]
    · have h1 : (d.set a (f a))[j]? = none :=
        List.getElem?_eq_none (by rw [List.length_set]; omega)
      have h2 : d[j]? = none := List.getElem?_eq_none (by omega)
      simp [hlen, h1, h2]

/-- Length contract of `compute_d_rs`: one entry per window (the window count
read off the matrix shape). -/
lemma compute_d_rs_length (M : List (List (Option ℚ))) (r : List Bool) :
    (compute_d_rs M r).length = (M.headD []).length := by
  unfold compute_d_rs compute_d_rs_run
  by_cases h : 0 < r.count true ∧ 0 < r.count false
  · rw [if_pos h, foldl_step_d_rs, foldl_set_length, List.length_replicate]
  · rw [if_neg h]
    simp

/-- Entry `j` of `compute_d_rs`: NaN if the resection vector is globally
degenerate, the per-window result otherwise. -/
lemma compute_d_rs_getElem (M : List (List (Option ℚ))) (r : List Bool)
    (j : Nat) (hj : j < (M.headD []).length) :
    (compute_d_rs M r)[j]? =
      some (if 0 < r.count true ∧ 0 < r.count false
            then d_rs_window M r j else none) := by
  unfold compute_d_rs compute_d_rs_run
  by_cases h : 0 < r.count true ∧ 0 < r.count false
  · rw [if_pos h, foldl_step_d_rs, foldl_set_getElem,
      if_pos ⟨List.mem_range.mpr hj, by simpa using hj⟩, if_pos h]
  · rw [if_neg h, if_neg h]
    show ((List.replicate (M.headD []).length (some 0)).map fun _ => none)[j]? = _
    rw [List.map_replicate, List.getElem?_replicate, if_pos hj]

/-- Values of `keep_pairs` carrying the spared flag `true` are exactly the
non-missing values at spared ROIs, in order. -/
lemma keep_pairs_filter_true (r : List Bool) (col : List (Option ℚ)) :
    ((keep_pairs r col).filter (fun p => p.1)).map Prod.snd
      = (r.zip col).filterMap (fun p => if p.1 then none else p.2) := by
  unfold keep_pairs
  generalize r.zip col = l
  induction l with
  | nil => rfl
  | cons p t ih =>
    obtain ⟨b, o⟩ := p
    cases b <;> cases o <;> simpa [List.filterMap_cons] using ih

/-- Values of `keep_pairs` carrying the spared flag `false` are exactly the
non-missing values at resected ROIs, in order. -/
lemma keep_pairs_filter_false (r : List Bool) (col : List (Option ℚ)) :
    ((keep_pairs r col).filter (fun p => !p.1)).map Prod.snd
      = (r.zip col).filterMap (fun p => if p.1 then p.2 else none) := by
  unfold keep_pairs
  generalize r.zip col = l
  induction l with
  | nil => rfl
  | cons p t ih =>
    obtain ⟨b, o⟩ := p
    cases b <;> cases o <;> simpa [List.filterMap_cons] using ih

/-- Counting `true` among the first components is the length of the
`true`-filtered list. -/
lemma count_true_map_fst (l : List (Bool × ℚ)) :
    (l.map Prod.fst).count true = (l.filter (fun p => p.1)).length := by
  induction l with
  | nil => rfl
  | cons p t ih =>
    obtain ⟨b, x⟩ := p
    cases b <;> simp [ih, List.count_cons]

/-- Counting `false` among the first components is the length of the
`false`-filtered list. -/
lemma count_false_map_fst (l : List (Bool × ℚ)) :
    (l.map Prod.fst).count false = (l.filter (fun p => !p.1)).length := by
  induction l with
  | nil => rfl
  | cons p t ih =>
    obtain ⟨b, x⟩ := p
    cases b <;> simp [ih, List.count_cons]

/-- Every single pair score is nonnegative. -/
lemma pair_score_nonneg (s r : ℚ) : 0 ≤ pair_score s r := by
  unfold pair_score
  split
  · norm_num
  · split <;> norm_num

/-- Every single pair score is at most one. -/
lemma pair_score_le_one (s r : ℚ) : pair_score s r ≤ 1 := by
  unfold pair_score
  split
  · norm_num
  · split <;> norm_num

/-- The Mann-Whitney statistic is nonnegative. -/
lemma mw_prob_nonneg (pos neg : List ℚ) : 0 ≤ mw_prob pos neg := by
  unfold mw_prob
  apply div_nonneg
  · apply List.sum_nonneg
    intro x hx
    obtain ⟨s, _, rfl⟩ := List.mem_map.mp hx
    apply List.sum_nonneg
    intro y hy
    obtain ⟨r, _, rfl⟩ := List.mem_map.mp hy
    exact pair_score_nonneg s r
  · positivity

/-- With both groups nonempty the Mann-Whitney statistic is at most one. -/
lemma mw_prob_le_one (pos neg : List ℚ) (hp : pos ≠ []) (hn : neg ≠ []) :
    mw_prob pos neg ≤ 1 := by
  have hp0 : (0 : ℚ) < pos.length := by
    exact_mod_cast List.length_pos.mpr hp
  have hn0 : (0 : ℚ) < neg.length := by
    exact_mod_cast List.length_pos.mpr hn
  unfold mw_prob
  rw [div_le_one (mul_pos hp0 hn0)]
  calc (pos.map (fun s => (neg.map (fun r => pair_score s r)).sum)).sum
      ≤ (pos.map (fun s => (neg.map (fun r => pair_score s r)).sum)).length
          • ((neg.length : ℚ)) := by
        apply List.sum_le_card_nsmul
        intro x hx
        obtain ⟨s, _, rfl⟩ := List.mem_map.mp hx
        calc (neg.map (fun r => pair_score s r)).sum
            ≤ (neg.map (fun r => pair_score s r)).length • (1 : ℚ) := by
              apply List.sum_le_card_nsmul
              intro y hy
              obtain ⟨r, _, rfl⟩ := List.mem_map.mp hy
              exact pair_score_le_one s r
          _ = (neg.length : ℚ) := by
              rw [List.length_map, nsmul_eq_mul, mul_one]
    _ = (pos.length : ℚ) * (neg.length : ℚ) := by
        rw [List.length_map, nsmul_eq_mul]

/-- When every negative-group value is strictly below every positive-group
value (both groups nonempty), the Mann-Whitney statistic is exactly one. -/
lemma mw_prob_perfect (pos neg : List ℚ) (hp : pos ≠ []) (hn : neg ≠ [])
    (h : ∀ x ∈ neg, ∀ y ∈ pos, x < y) : mw_prob pos neg = 1 := by
  have hp0 : (0 : ℚ) < pos.length := by
    exact_mod_cast List.length_pos.mpr hp
  have hn0 : (0 : ℚ) < neg.length := by
    exact_mod_cast List.length_pos.mpr hn
  unfold mw_prob
  have hsum : (pos.map (fun s => (neg.map (fun r => pair_score s r)).sum)).sum
      = (pos.length : ℚ) * (neg.length : ℚ) := by
    rw [List.sum_eq_card_nsmul _ ((neg.length : ℚ)) ?_, List.length_map,
      nsmul_eq_mul]
    intro x hx
    obtain ⟨s, hs, rfl⟩ := List.mem_map.mp hx
    rw [List.sum_eq_card_nsmul _ (1 : ℚ) ?_, List.length_map, nsmul_eq_mul,
      mul_one]
    intro y hy
    obtain ⟨r, hr, rfl⟩ := List.mem_map.mp hy
    unfold pair_score
    rw [if_pos (h r hr s hs)]
  rw [hsum, div_self (ne_of_gt (mul_pos hp0 hn0))]

/-- When every pair of values across the two groups ties (both groups
nonempty), the Mann-Whitney statistic is exactly one half. -/
lemma mw_prob_ties (pos neg : List ℚ) (hp : pos ≠ []) (hn : neg ≠ [])
    (h : ∀ x ∈ neg, ∀ y ∈ pos, x = y) : mw_prob pos neg = 1/2 := by
  have hp0 : (0 : ℚ) < pos.length := by
    exact_mod_cast List.length_pos.mpr hp
  have hn0 : (0 : ℚ) < neg.length := by
    exact_mod_cast List.length_pos.mpr hn
  unfold mw_prob
  have hsum : (pos.map (fun s => (neg.map (fun r => pair_score s r)).sum)).sum
      = (pos.length : ℚ) * ((neg.length : ℚ) * (1/2)) := by
    rw [List.sum_eq_card_nsmul _ ((neg.length : ℚ) * (1/2)) ?_, List.length_map,
      nsmul_eq_mul]
    intro x hx
    obtain ⟨s, hs, rfl⟩ := List.mem_map.mp hx
    rw [List.sum_eq_card_nsmul _ (1/2 : ℚ) ?_, List.length_map, nsmul_eq_mul]
    intro y hy
    obtain ⟨r, hr, rfl⟩ := List.mem_map.mp hy
    have heq : r = s := h r hr s hs
    unfold pair_score
    rw [if_neg (by rw [heq]; exact lt_irrefl s), if_pos heq]
  rw [hsum]
  field_simp
  ring

/-- The library AUC applied to the unzipped components of a label-value list
is the Mann-Whitney statistic of its `true`-labelled values against its
`false`-labelled values. -/
lemma roc_auc_eq_mw (l : List (Bool × ℚ)) :
    roc_auc_score (l.map Prod.fst) (l.map Prod.snd)
      = mw_prob ((l.filter (fun p => p.1)).map Prod.snd)
          ((l.filter (fun p => !p.1)).map Prod.snd) := by
  unfold roc_auc_score
  rw [List.zip_map']
  simp

/-- The number of spared flags in a window equals the number of non-missing
spared values of that window. -/
lemma spared_count (M : List (List (Option ℚ))) (r : List Bool) (i : Nat) :
    ((keep_pairs r (mat_column M i)).map Prod.fst).count true
      = (spared_vals M r i).length := by
  rw [count_true_map_fst, spared_vals,
    ← keep_pairs_filter_true r (mat_column M i), List.length_map]

/-- The number of resected flags in a window equals the number of non-missing
resected values of that window. -/
lemma resected_count (M : List (List (Option ℚ))) (r : List Bool) (i : Nat) :
    ((keep_pairs r (mat_column M i)).map Prod.fst).count false
      = (resected_vals M r i).length := by
  rw [count_false_map_fst, resected_vals,
    ← keep_pairs_filter_false r (mat_column M i), List.length_map]

/-- Characterisation of one window of `compute_d_rs` in spec terms: the
Mann-Whitney statistic of the spared against the resected non-missing values
when both groups are inhabited, NaN otherwise. -/
lemma d_rs_window_eq (M : List (List (Option ℚ))) (r : List Bool) (i : Nat) :
    d_rs_window M r i =
      if 0 < (spared_vals M r i).length ∧ 0 < (resected_vals M r i).length then
        some (mw_prob (spared_vals M r i) (resected_vals M r i))
      else none := by
  simp only [d_rs_window]
  rw [spared_count, resected_count, roc_auc_eq_mw,
    keep_pairs_filter_true, keep_pairs_filter_false]
  rfl

/-- The spared flag of every kept window entry is the negation of an entry of
the resection vector. -/
lemma mem_keep_pairs (r : List Bool) (col : List (Option ℚ)) (b : Bool) (x : ℚ)
    (h : (b, x) ∈ keep_pairs r col) : (!b) ∈ r := by
  unfold keep_pairs at h
  obtain ⟨p, hp, hf⟩ := List.mem_filterMap.mp h
  cases ho : p.2 with
  | none => rw [ho] at hf; simp at hf
  | some v =>
    rw [ho] at hf
    have hb : (!p.1) = b := congrArg Prod.fst (Option.some.inj hf)
    have hmem : p.1 ∈ r := (List.of_mem_zip hp).1
    rw [← hb, Bool.not_not]
    exact hmem

/-- Without a resected ROI anywhere, no window has a resected value. -/
lemma resected_vals_eq_nil (M : List (List (Option ℚ))) (r : List Bool)
    (i : Nat) (h : r.count true = 0) : resected_vals M r i = [] := by
  unfold resected_vals
  rw [List.filterMap_eq_nil_iff]
  intro p hp
  have hmem : p.1 ∈ r := (List.of_mem_zip hp).1
  have : p.1 ≠ true := by
    intro hT
    rw [hT] at hmem
    exact absurd (List.count_pos_iff.mpr hmem) (by omega)
  rw [if_neg this]

/-- Without a spared ROI anywhere, no window has a spared value. -/
lemma spared_vals_eq_nil (M : List (List (Option ℚ))) (r : List Bool)
    (i : Nat) (h : r.count false = 0) : spared_vals M r i = [] := by
  unfold spared_vals
  rw [List.filterMap_eq_nil_iff]
  intro p hp
  have hmem : p.1 ∈ r := (List.of_mem_zip hp).1
  have hne : p.1 ≠ false := by
    intro hF
    rw [hF] at hmem
    exact absurd (List.count_pos_iff.mpr hmem) (by omega)
  rw [if_pos (eq_true_of_ne_false hne)]

/-- A window with a non-missing spared value forces a spared flag in the
resection vector, and likewise for resected; hence the global fast-path check
of `compute_d_rs` passes whenever some window has both classes. -/
lemma global_classes_of_window (M : List (List (Option ℚ))) (r : List Bool)
    (i : Nat) (hs : 0 < (spared_vals M r i).length)
    (hr : 0 < (resected_vals M r i).length) :
    0 < r.count true ∧ 0 < r.count false := by
  constructor
  · by_contra hc
    have h0 : r.count true = 0 := by omega
    rw [resected_vals_eq_nil M r i h0] at hr
    simp at hr
  · by_contra hc
    have h0 : r.count false = 0 := by omega
    rw [spared_vals_eq_nil M r i h0] at hs
    simp at hs

/-- For a nonempty rectangular matrix, the window count read off the first
row is the common row length. -/
lemma head_length (M : List (List (Option ℚ))) (w : Nat) (hM : M ≠ [])
    (hw : ∀ row ∈ M, row.length = w) : (M.headD []).length = w := by
  cases M with
  | nil => exact absurd rfl hM
  | cons row rest => exact hw row (List.mem_cons_self row rest)

/-- C1: for a real ROI-by-window matrix `M` and a boolean resection vector
`r` with length equal to the row count, `compute_d_rs` returns one value per
window; every window whose non-missing entries contain at least one spared
and at least one resected ROI receives the ROC-AUC of the restricted column
values with spared membership as the positive class (the Mann-Whitney
probability that a spared value exceeds a resected value, ties one half);
and on the 4x3 end-to-end example with resection `[T,T,F,F]` the output is
`[1, 1, NaN]`. -/
theorem C1_compute_d_rs_contract (M : List (List (Option ℚ))) (r : List Bool)
    (w : Nat) (hM : M ≠ []) (hw : ∀ row ∈ M, row.length = w)
    (hlen : r.length = M.length) :
    (compute_d_rs M r).length = w ∧
    (∀ i, i < w → spared_vals M r i ≠ [] → resected_vals M r i ≠ [] →
      (compute_d_rs M r)[i]? =
        some (some (mw_prob (spared_vals M r i) (resected_vals M r i)))) ∧
    compute_d_rs
      [[some 1, none, none], [some 2, some 2, none],
       [some 5, some 5, some 5], [some 6, some 6, some 6]]
      [true, true, false, false] = [some 1, some 1, none] := by
  have hhead := head_length M w hM hw
  refine ⟨by rw [compute_d_rs_length, hhead], ?_, ?_⟩
  · intro i hi hs hres
    have hs0 := List.length_pos.mpr hs
    have hr0 := List.length_pos.mpr hres
    rw [compute_d_rs_getElem M r i (by rw [hhead]; exact hi),
      if_pos (global_classes_of_window M r i hs0 hr0),
      d_rs_window_eq, if_pos ⟨hs0, hr0⟩]
  · norm_num [compute_d_rs, compute_d_rs_run, compute_d_rs_step, d_rs_window,
      keep_pairs, mat_column, roc_auc_score, mw_prob, pair_score,
      List.range_succ, List.replicate, List.set, List.filterMap_cons,
      Function.comp]

/-- Witness for C1 at the spec's end-to-end example: the output has one
entry per window, and window 0 carries the AUC of spared against resected
values. -/
theorem C1_compute_d_rs_contract_witness :
    (compute_d_rs
      [[some 1, none, none], [some 2, some 2, none],
       [some 5, some 5, some 5], [some 6, some 6, some 6]]
      [true, true, false, false]).length = 3 ∧
    (compute_d_rs
      [[some 1, none, none], [some 2, some 2, none],
       [some 5, some 5, some 5], [some 6, some 6, some 6]]
      [true, true, false, false])[0]? =
      some (some (mw_prob
        (spared_vals
          [[some 1, none, none], [some 2, some 2, none],
           [some 5, some 5, some 5], [some 6, some 6, some 6]]
          [true, true, false, false] 0)
        (resected_vals
          [[some 1, none, none], [some 2, some 2, none],
           [some 5, some 5, some 5], [some 6, some 6, some 6]]
          [true, true, false, false] 0))) := by
  obtain ⟨h1, h2, _⟩ := C1_compute_d_rs_contract
    [[some 1, none, none], [some 2, some 2, none],
     [some 5, some 5, some 5], [some 6, some 6, some 6]]
    [true, true, false, false] 3
    (by simp) (by simp) (by simp)
  exact ⟨h1, h2 0 (by norm_num) (by simp [spared_vals, mat_column])
    (by simp [resected_vals, mat_column])⟩

/-- C2: `compute_d_rs` is total on degenerate inputs, an output entry is NaN
exactly when the window's non-missing values miss a spared or a resected
ROI, and a globally one-class resection vector makes the whole output NaN. -/
theorem C2_compute_d_rs_nan_iff (M : List (List (Option ℚ))) (r : List Bool)
    (w : Nat) (hM : M ≠ []) (hw : ∀ row ∈ M, row.length = w)
    (hlen : r.length = M.length) :
    (∀ i, i < w →
      ((compute_d_rs M r)[i]? = some none ↔
        (spared_vals M r i = [] ∨ resected_vals M r i = []))) ∧
    ((r.count true = 0 ∨ r.count false = 0) →
      compute_d_rs M r = List.replicate w none) := by
  have hhead := head_length M w hM hw
  constructor
  · intro i hi
    rw [compute_d_rs_getElem M r i (by rw [hhead]; exact hi)]
    by_cases hg : 0 < r.count true ∧ 0 < r.count false
    · rw [if_pos hg, d_rs_window_eq]
      by_cases hc : 0 < (spared_vals M r i).length ∧
          0 < (resected_vals M r i).length
      · rw [if_pos hc]
        simp only [Option.some.injEq]
        constructor
        · intro h
          exact absurd h (by simp)
        · intro h
          rcases h with h | h
          · exact absurd hc.1 (by rw [h]; simp)
          · exact absurd hc.2 (by rw [h]; simp)
      · rw [if_neg hc]
        simp only [Option.some.injEq, true_iff]
        rcases Nat.lt_or_ge 0 (spared_vals M r i).length with hs | hs
        · rcases Nat.lt_or_ge 0 (resected_vals M r i).length with hres | hres
          · exact absurd ⟨hs, hres⟩ hc
          · exact Or.inr (List.length_eq_zero.mp (by omega))
        · exact Or.inl (List.length_eq_zero.mp (by omega))
    · rw [if_neg hg]
      simp only [Option.some.injEq, true_iff]
      rcases Nat.lt_or_ge 0 (r.count true) with ht | ht
      · rcases Nat.lt_or_ge 0 (r.count false) with hf | hf
        · exact absurd ⟨ht, hf⟩ hg
        · exact Or.inl (spared_vals_eq_nil M r i (by omega))
      · exact Or.inr (resected_vals_eq_nil M r i (by omega))
  · intro hdeg
    have hg : ¬(0 < r.count true ∧ 0 < r.count false) := by
      rcases hdeg with h | h <;> omega
    unfold compute_d_rs compute_d_rs_run
    rw [if_neg hg]
    show ((List.replicate (M.headD []).length (some 0)).map fun _ => none)
        = List.replicate w none
    rw [List.map_replicate, hhead]

/-- Witness for C2: with a resection vector marking every ROI resected, the
whole output is NaN, and the NaN characterisation holds at window 0. -/
theorem C2_compute_d_rs_nan_iff_witness :
    compute_d_rs [[some 1], [some 2]] [true, true] = List.replicate 1 none ∧
    ((compute_d_rs [[some 1], [some 2]] [true, true])[0]? = some none ↔
      (spared_vals [[some 1], [some 2]] [true, true] 0 = [] ∨
       resected_vals [[some 1], [some 2]] [true, true] 0 = [])) := by
  obtain ⟨h1, h2⟩ := C2_compute_d_rs_nan_iff [[some 1], [some 2]] [true, true]
    1 (by simp) (by simp) (by simp)
  exact ⟨h2 (Or.inr (by simp)), h1 0 (by norm_num)⟩

/-- C3: whenever a window's non-missing values contain both a resected and a
spared ROI, the corresponding output entry of `compute_d_rs` is a real
number in the closed interval from 0 to 1. -/
theorem C3_compute_d_rs_in_unit_interval (M : List (List (Option ℚ)))
    (r : List Bool) (w : Nat) (hM : M ≠ []) (hw : ∀ row ∈ M, row.length = w)
    (hlen : r.length = M.length) (i : Nat) (hi : i < w)
    (hs : spared_vals M r i ≠ []) (hres : resected_vals M r i ≠ []) :
    ∃ a, (compute_d_rs M r)[i]? = some (some a) ∧ 0 ≤ a ∧ a ≤ 1 := by
  have hhead := head_length M w hM hw
  have hs0 := List.length_pos.mpr hs
  have hr0 := List.length_pos.mpr hres
  refine ⟨mw_prob (spared_vals M r i) (resected_vals M r i), ?_, ?_, ?_⟩
  · rw [compute_d_rs_getElem M r i (by rw [hhead]; exact hi),
      if_pos (global_classes_of_window M r i hs0 hr0),
      d_rs_window_eq, if_pos ⟨hs0, hr0⟩]
  · exact mw_prob_nonneg _ _
  · exact mw_prob_le_one _ _ hs hres

/-- Witness for C3 at a concrete window with both classes. -/
theorem C3_compute_d_rs_in_unit_interval_witness :
    ∃ a, (compute_d_rs [[some 2], [some 7]] [true, false])[0]? =
      some (some a) ∧ 0 ≤ a ∧ a ≤ 1 :=
  C3_compute_d_rs_in_unit_interval [[some 2], [some 7]] [true, false] 1
    (by simp) (by simp) (by simp) 0 (by norm_num)
    (by simp [spared_vals, mat_column]) (by simp [resected_vals, mat_column])

/-- C4: a window in which every resected non-missing value is strictly below
every spared non-missing value (both classes inhabited) receives the exact
value 1. -/
theorem C4_compute_d_rs_perfect_separation (M : List (List (Option ℚ)))
    (r : List Bool) (w : Nat) (hM : M ≠ []) (hw : ∀ row ∈ M, row.length = w)
    (hlen : r.length = M.length) (i : Nat) (hi : i < w)
    (hs : spared_vals M r i ≠ []) (hres : resected_vals M r i ≠ [])
    (hlt : ∀ x ∈ resected_vals M r i, ∀ y ∈ spared_vals M r i, x < y) :
    (compute_d_rs M r)[i]? = some (some 1) := by
  have hhead := head_length M w hM hw
  have hs0 := List.length_pos.mpr hs
  have hr0 := List.length_pos.mpr hres
  rw [compute_d_rs_getElem M r i (by rw [hhead]; exact hi),
    if_pos (global_classes_of_window M r i hs0 hr0),
    d_rs_window_eq, if_pos ⟨hs0, hr0⟩,
    mw_prob_perfect _ _ hs hres hlt]

/-- Witness for C4 at the spec's concrete example: resected values `[1,2]`,
spared values `[5,6]` give D_RS exactly 1. -/
theorem C4_compute_d_rs_perfect_separation_witness :
    (compute_d_rs [[some 1], [some 2], [some 5], [some 6]]
      [true, true, false, false])[0]? = some (some 1) :=
  C4_compute_d_rs_perfect_separation
    [[some 1], [some 2], [some 5], [some 6]] [true, true, false, false] 1
    (by simp) (by simp) (by simp) 0 (by norm_num)
    (by simp [spared_vals, mat_column]) (by simp [resected_vals, mat_column])
    (by norm_num [resected_vals, spared_vals, mat_column]
        rintro x (rfl | rfl) y (rfl | rfl) <;> norm_num)

/-- C5: a window in which every pair of non-missing values ties across the
resected and spared groups (both inhabited) receives the exact value 1/2. -/
theorem C5_compute_d_rs_all_ties (M : List (List (Option ℚ)))
    (r : List Bool) (w : Nat) (hM : M ≠ []) (hw : ∀ row ∈ M, row.length = w)
    (hlen : r.length = M.length) (i : Nat) (hi : i < w)
    (hs : spared_vals M r i ≠ []) (hres : resected_vals M r i ≠ [])
    (heq : ∀ x ∈ resected_vals M r i, ∀ y ∈ spared_vals M r i, x = y) :
    (compute_d_rs M r)[i]? = some (some (1/2)) := by
  have hhead := head_length M w hM hw
  have hs0 := List.length_pos.mpr hs
  have hr0 := List.length_pos.mpr hres
  rw [compute_d_rs_getElem M r i (by rw [hhead]; exact hi),
    if_pos (global_classes_of_window M r i hs0 hr0),
    d_rs_window_eq, if_pos ⟨hs0, hr0⟩,
    mw_prob_ties _ _ hs hres heq]

/-- Witness for C5 at the spec's concrete example: resected values `[3,3]`,
spared values `[3,3]` give D_RS exactly 1/2. -/
theorem C5_compute_d_rs_all_ties_witness :
    (compute_d_rs [[some 3], [some 3], [some 3], [some 3]]
      [true, true, false, false])[0]? = some (some (1/2)) :=
  C5_compute_d_rs_all_ties
    [[some 3], [some 3], [some 3], [some 3]] [true, true, false, false] 1
    (by simp) (by simp) (by simp) 0 (by norm_num)
    (by simp [spared_vals, mat_column]) (by simp [resected_vals, mat_column])
    (by norm_num [resected_vals, spared_vals, mat_column])

/-- C6: `compute_d_rs` is deterministic and free of hidden state: the run
leaves both input arrays exactly as they were, so a second call on the
arrays left behind by the first returns the identical output vector. -/
theorem C6_compute_d_rs_pure (M : List (List (Option ℚ))) (r : List Bool) :
    (compute_d_rs_run M r).roi_data = M ∧
    (compute_d_rs_run M r).roi_is_resect = r ∧
    compute_d_rs (compute_d_rs_run M r).roi_data
        (compute_d_rs_run M r).roi_is_resect
      = compute_d_rs M r := by
  have hfields : (compute_d_rs_run M r).roi_data = M ∧
      (compute_d_rs_run M r).roi_is_resect = r := by
    unfold compute_d_rs_run
    by_cases h : 0 < r.count true ∧ 0 < r.count false
    · rw [if_pos h]
      exact foldl_step_fields _ _
    · rw [if_neg h]
      exact ⟨rfl, rfl⟩
  exact ⟨hfields.1, hfields.2, by rw [hfields.1, hfields.2]⟩

/-- Embedding of the windows-per-hour computation shared by
`heatmap_abnormalities` (`vis_abnorm.py` line 90) and `plot_D_RS` (line 158):
`win_per_hr = 1/((t_days[1] - t_days[0])*24)` in float arithmetic.  A zero
window spacing yields float infinity, modelled as `none`. -/
def win_per_hr (t_days : List ℚ) : Option ℚ :=
  if (t_days.getD 1 0 - t_days.getD 0 0) * 24 = 0 then none
  else some (1 / ((t_days.getD 1 0 - t_days.getD 0 0) * 24))

/-- Model of the Python float method `is_integer`: true on a finite value
with zero fractional part, false on infinity. -/
def float_is_integer : Option ℚ → Bool
  | none => false
  | some q => q.den == 1

/-- The `int(win_per_hr)` conversion performed on the success path. -/
def opt_to_int : Option ℚ → Int
  | none => 0
  | some q => q.num

/-- Embedding of the validation step of `heatmap_abnormalities`
(`vis_abnorm.py` lines 90-94): accept an integral windows-per-hour count,
otherwise raise `ValueError`. -/
def heatmap_abnormalities_check (t_days : List ℚ) : Except String Int :=
  if float_is_integer (win_per_hr t_days) then
    Except.ok (opt_to_int (win_per_hr t_days))
  else
    Except.error "There must be an integer number of windows per hour"

/-- Embedding of the validation step of `plot_D_RS` (`vis_abnorm.py` lines
158-162), duplicated verbatim from `heatmap_abnormalities` in the source. -/
def plot_D_RS_check (t_days : List ℚ) : Except String Int :=
  if float_is_integer (win_per_hr t_days) then
    Except.ok (opt_to_int (win_per_hr t_days))
  else
    Except.error "There must be an integer number of windows per hour"

/-- A rational has denominator one exactly when it is an integer. -/
lemma den_one_iff_int (q : ℚ) : q.den = 1 ↔ ∃ k : ℤ, q = (k : ℚ) := by
  constructor
  · intro h
    exact ⟨q.num, ((Rat.den_eq_one_iff q).mp h).symm⟩
  · rintro ⟨k, rfl⟩
    exact Rat.den_intCast k

/-- Validation outcome of the shared check body: error exactly when the
windows-per-hour quantity is not a well-defined integer. -/
lemma check_error_iff (t_days : List ℚ) :
    (heatmap_abnormalities_check t_days =
        Except.error "There must be an integer number of windows per hour") ↔
      ¬((t_days.getD 1 0 - t_days.getD 0 0) ≠ 0 ∧
        ∃ k : ℤ, 1 / ((t_days.getD 1 0 - t_days.getD 0 0) * 24) = (k : ℚ)) := by
  unfold heatmap_abnormalities_check win_per_hr
  by_cases h0 : (t_days.getD 1 0 - t_days.getD 0 0) * 24 = 0
  · rw [if_pos h0]
    have hdiff : t_days.getD 1 0 - t_days.getD 0 0 = 0 := by
      rcases mul_eq_zero.mp h0 with h | h
      · exact h
      · norm_num at h
    exact ⟨fun _ hc => hc.1 hdiff, fun _ => rfl⟩
  · rw [if_neg h0]
    have hdiff : t_days.getD 1 0 - t_days.getD 0 0 ≠ 0 := by
      intro h
      exact h0 (by rw [h, zero_mul])
    by_cases hint : (1 / ((t_days.getD 1 0 - t_days.getD 0 0) * 24)).den = 1
    · rw [float_is_integer, if_pos (by simpa using hint)]
      simp only [reduceCtorEq, false_iff, not_not]
      exact ⟨hdiff, (den_one_iff_int _).mp hint⟩
    · rw [float_is_integer, if_neg (by simpa using hint)]
      simp only [true_iff]
      intro hc
      exact hint ((den_one_iff_int _).mpr hc.2)

/-- The two plotting functions share the validation body verbatim. -/
lemma plot_D_RS_check_eq (t_days : List ℚ) :
    plot_D_RS_check t_days = heatmap_abnormalities_check t_days := rfl

/-- C7: for every time vector with at least two entries, both
`heatmap_abnormalities` and `plot_D_RS` raise their `ValueError` exactly
when `1/((t_days[1]-t_days[0])*24)`, the number of windows per hour, is not
a well-defined integer; the validation is a single immediate check. -/
theorem C7_windows_per_hour_validation (t_days : List ℚ)
    (h : 2 ≤ t_days.length) :
    ((heatmap_abnormalities_check t_days =
        Except.error "There must be an integer number of windows per hour") ↔
      ¬((t_days.getD 1 0 - t_days.getD 0 0) ≠ 0 ∧
        ∃ k : ℤ, 1 / ((t_days.getD 1 0 - t_days.getD 0 0) * 24) = (k : ℚ))) ∧
    ((plot_D_RS_check t_days =
        Except.error "There must be an integer number of windows per hour") ↔
      ¬((t_days.getD 1 0 - t_days.getD 0 0) ≠ 0 ∧
        ∃ k : ℤ, 1 / ((t_days.getD 1 0 - t_days.getD 0 0) * 24) = (k : ℚ))) :=
  ⟨check_error_iff t_days, by rw [plot_D_RS_check_eq]; exact check_error_iff t_days⟩

/-- Witness for C7 on the concrete time axis `[0, 1/24]` (one window per
hour): the validation error characterisation holds for both functions. -/
theorem C7_windows_per_hour_validation_witness :
    ((heatmap_abnormalities_check [0, 1/24] =
        Except.error "There must be an integer number of windows per hour") ↔
      ¬((([0, 1/24] : List ℚ).getD 1 0 - ([0, 1/24] : List ℚ).getD 0 0) ≠ 0 ∧
        ∃ k : ℤ, 1 / ((([0, 1/24] : List ℚ).getD 1 0 -
          ([0, 1/24] : List ℚ).getD 0 0) * 24) = (k : ℚ))) ∧
    ((plot_D_RS_check [0, 1/24] =
        Except.error "There must be an integer number of windows per hour") ↔
      ¬((([0, 1/24] : List ℚ).getD 1 0 - ([0, 1/24] : List ℚ).getD 0 0) ≠ 0 ∧
        ∃ k : ℤ, 1 / ((([0, 1/24] : List ℚ).getD 1 0 -
          ([0, 1/24] : List ℚ).getD 0 0) * 24) = (k : ℚ))) :=
  C7_windows_per_hour_validation [0, 1/24] (by norm_num)

/-- Modelled from library semantics: `scipy.stats.ranksums(x, y, alternative)`
computes a one-sided Wilcoxon rank-sum p-value from the standard normal
distribution.  The transcendental p-value itself is not expressible as an
executable rational function, so the call is kept abstract as the record of
the arguments handed to the library: the two samples and the alternative. -/
structure RanksumCall where
  x : List ℚ
  y : List ℚ
  alternative : String
deriving DecidableEq

/-- The per-patient (outcome flag, measure) pairs surviving the NaN removal
of `plot_outcome_auc` (`vis_abnorm.py` lines 220-223):
`pnt_meas[~is_nan]` zipped with `good_outcome[~is_nan]`. -/
def outcome_pairs (good_outcome : List Bool) (pnt_meas : List (Option ℚ)) :
    List (Bool × ℚ) :=
  (good_outcome.zip pnt_meas).filterMap (fun p => p.2.map (fun x => (p.1, x)))

/-- Embedding of the computational core of `plot_outcome_auc`
(`vis_abnorm.py` lines 220-243): remove the patients with a missing measure
from both vectors and report their number, flip the labels into poor-outcome
(`bad_outcome = good_outcome == 0`), then, if any measure remains, compute
the AUC with poor outcome as the positive class and hand the good-outcome
and poor-outcome samples to the rank-sum test with the chosen alternative;
with no remaining measure, AUC and p-value are NaN. -/
def plot_outcome_auc_core (good_outcome : List Bool)
    (pnt_meas : List (Option ℚ)) (p_side : String) :
    Nat × Option ℚ × Option RanksumCall :=
  let kept := outcome_pairs good_outcome pnt_meas
  let n_removed := pnt_meas.countP (fun m => m.isNone)
  let bad_outcome := kept.map (fun p => !p.1)
  let meas := kept.map Prod.snd
  if 0 < meas.length then
    (n_removed,
     some (roc_auc_score bad_outcome meas),
     some ⟨(kept.filter (fun p => p.1)).map Prod.snd,
           (kept.filter (fun p => !p.1)).map Prod.snd,
           p_side⟩)
  else
    (n_removed, none, none)

/-- Spec-side view: the non-missing measures of the patients whose outcome
flag equals `b`, in patient order. -/
def meas_of_outcome (good_outcome : List Bool) (pnt_meas : List (Option ℚ))
    (b : Bool) : List ℚ :=
  (good_outcome.zip pnt_meas).filterMap
    (fun p => if p.1 == b then p.2 else none)

/-- The kept pairs with outcome flag `true` carry exactly the non-missing
measures of good-outcome patients, in order. -/
lemma outcome_pairs_filter_true (go : List Bool) (meas : List (Option ℚ)) :
    ((outcome_pairs go meas).filter (fun p => p.1)).map Prod.snd
      = meas_of_outcome go meas true := by
  unfold outcome_pairs meas_of_outcome
  generalize go.zip meas = l
  induction l with
  | nil => rfl
  | cons p t ih =>
    obtain ⟨b, o⟩ := p
    cases b <;> cases o <;> simpa [List.filterMap_cons] using ih

/-- The kept pairs with outcome flag `false` carry exactly the non-missing
measures of poor-outcome patients, in order. -/
lemma outcome_pairs_filter_false (go : List Bool) (meas : List (Option ℚ)) :
    ((outcome_pairs go meas).filter (fun p => !p.1)).map Prod.snd
      = meas_of_outcome go meas false := by
  unfold outcome_pairs meas_of_outcome
  generalize go.zip meas = l
  induction l with
  | nil => rfl
  | cons p t ih =>
    obtain ⟨b, o⟩ := p
    cases b <;> cases o <;> simpa [List.filterMap_cons] using ih

/-- The AUC computed by `plot_outcome_auc` on flipped labels is the
Mann-Whitney statistic of the poor-outcome against the good-outcome
non-missing measures. -/
lemma outcome_auc_eq_mw (go : List Bool) (meas : List (Option ℚ)) :
    roc_auc_score ((outcome_pairs go meas).map (fun p => !p.1))
        ((outcome_pairs go meas).map Prod.snd)
      = mw_prob (meas_of_outcome go meas false)
          (meas_of_outcome go meas true) := by
  have h1 : (outcome_pairs go meas).map (fun p => !p.1)
      = ((outcome_pairs go meas).map (fun p => ((!p.1, p.2) : Bool × ℚ))).map
          Prod.fst := by
    rw [List.map_map]
    rfl
  have h2 : (outcome_pairs go meas).map Prod.snd
      = ((outcome_pairs go meas).map (fun p => ((!p.1, p.2) : Bool × ℚ))).map
          Prod.snd := by
    rw [List.map_map]
    rfl
  rw [h1, h2, roc_auc_eq_mw, List.filter_map, List.filter_map, List.map_map,
    List.map_map]
  have h3 : ((outcome_pairs go meas).filter
        ((fun p => p.1) ∘ fun p => ((!p.1, p.2) : Bool × ℚ))).map
        (Prod.snd ∘ fun p => ((!p.1, p.2) : Bool × ℚ))
      = ((outcome_pairs go meas).filter (fun p => !p.1)).map Prod.snd := by
    apply congrArg
    rfl
  have h4 : ((outcome_pairs go meas).filter
        ((fun p => !p.1) ∘ fun p => ((!p.1, p.2) : Bool × ℚ))).map
        (Prod.snd ∘ fun p => ((!p.1, p.2) : Bool × ℚ))
      = ((outcome_pairs go meas).filter (fun p => p.1)).map Prod.snd := by
    have : ((fun p => !p.1) ∘ fun p => ((!p.1, p.2) : Bool × ℚ))
        = fun (p : Bool × ℚ) => p.1 := by
      funext p
      simp [Function.comp]
    rw [this]
    apply congrArg
    rfl
  rw [h3, h4, outcome_pairs_filter_true, outcome_pairs_filter_false]

/-- A non-missing measure somewhere in equal-length input vectors leaves at
least one kept pair after NaN removal. -/
lemma outcome_pairs_ne_nil (go : List Bool) (meas : List (Option ℚ))
    (hlen : go.length = meas.length) (hne : ∃ m ∈ meas, m ≠ none) :
    outcome_pairs go meas ≠ [] := by
  induction go generalizing meas with
  | nil =>
    obtain ⟨m, hm, _⟩ := hne
    rw [List.length_nil] at hlen
    rw [List.eq_nil_of_length_eq_zero hlen.symm] at hm
    exact absurd hm (List.not_mem_nil m)
  | cons g gt ih =>
    cases meas with
    | nil => simp at hlen
    | cons m mt =>
      cases m with
      | some v =>
        unfold outcome_pairs
        rw [List.zip_cons_cons, List.filterMap_cons]
        simp
      | none =>
        obtain ⟨m2, hm2, hm2o⟩ := hne
        have hm2t : m2 ∈ mt := by
          rcases List.mem_cons.mp hm2 with h | h
          · exact absurd h hm2o
          · exact h
        have hlen2 : gt.length = mt.length := by
          rw [List.length_cons, List.length_cons] at hlen
          omega
        have hrec := ih mt hlen2 ⟨m2, hm2t, hm2o⟩
        unfold outcome_pairs at hrec ⊢
        rw [List.zip_cons_cons, List.filterMap_cons]
        simpa using hrec

/-- C8: `plot_outcome_auc` removes exactly the entries with a missing
measure from both vectors (reporting their number), and returns the AUC of
the remaining measures with poor outcome as the positive class together
with the rank-sum call on the good-outcome and poor-outcome samples for the
chosen direction. -/
theorem C8_plot_outcome_auc_contract (go : List Bool)
    (meas : List (Option ℚ)) (side : String)
    (hlen : go.length = meas.length) (hne : ∃ m ∈ meas, m ≠ none) :
    plot_outcome_auc_core go meas side =
      (meas.countP (fun m => m.isNone),
       some (mw_prob (meas_of_outcome go meas false)
         (meas_of_outcome go meas true)),
       some ⟨meas_of_outcome go meas true, meas_of_outcome go meas false,
         side⟩) := by
  unfold plot_outcome_auc_core
  have hk : outcome_pairs go meas ≠ [] := outcome_pairs_ne_nil go meas hlen hne
  have hpos : 0 < ((outcome_pairs go meas).map Prod.snd).length := by
    rw [List.length_map]
    exact List.length_pos.mpr hk
  rw [if_pos hpos, outcome_auc_eq_mw, outcome_pairs_filter_true,
    outcome_pairs_filter_false]

/-- Witness for C8 on a concrete cohort of three patients with one missing
measure. -/
theorem C8_plot_outcome_auc_contract_witness :
    plot_outcome_auc_core [true, false, false] [some 1, some 2, none] "less" =
      (([some 1, some 2, none] : List (Option ℚ)).countP (fun m => m.isNone),
       some (mw_prob
         (meas_of_outcome [true, false, false] [some 1, some 2, none] false)
         (meas_of_outcome [true, false, false] [some 1, some 2, none] true)),
       some ⟨meas_of_outcome [true, false, false] [some 1, some 2, none] true,
         meas_of_outcome [true, false, false] [some 1, some 2, none] false,
         "less"⟩) :=
  C8_plot_outcome_auc_contract [true, false, false] [some 1, some 2, none]
    "less" (by simp) ⟨some 1, by simp, by simp⟩

/-- Embedding of the return values of `set_paths` (`common.py` lines
77-111): the body reassigns `data_dir` to the literal string before
returning, so the argument is dropped; the `plot_dir` argument is returned
unchanged.  Printing and the `os.makedirs(plot_dir, exist_ok=True)` side
effect touch no returned value. -/
def set_paths (data_dir : String := "data") (plot_dir : String := "plots") :
    String × String :=
  let data_dir := "data"
  (data_dir, plot_dir)

/-- C10: `set_paths` ignores its `data_dir` argument, returning the literal
string for the data directory regardless of it, and passes `plot_dir`
through unchanged. -/
theorem C10_set_paths_ignores_data_dir :
    ∀ d p : String, set_paths d p = ("data", p) ∧
      (∀ dd : String, set_paths d p = set_paths dd p) :=
  fun _ _ => ⟨rfl, fun _ => rfl⟩

/-- Documented contract of `np.argsort(keys)` for any sort kind
(`plot_figure3.py` line 42, `plot_figure4_across_patients.py` line 44, both
with the default `kind` being quicksort/introsort): the result is a
permutation of the index range along which the keys are non-decreasing.
The default kind guarantees nothing beyond this; in particular NumPy
documents it as not stable. -/
def sorts_by {α : Type} [LinearOrder α] [Inhabited α] (keys : List α)
    (perm : List Nat) : Prop :=
  perm.Perm (List.range keys.length) ∧
  perm.Pairwise (fun i j => keys.getD i default ≤ keys.getD j default)

/-- Stability of an index permutation with respect to its keys: indices with
equal keys appear in their original relative order. -/
def ties_in_order {α : Type} [Inhabited α] [DecidableEq α] (keys : List α)
    (perm : List Nat) : Prop :=
  perm.Pairwise (fun i j => keys.getD i default = keys.getD j default → i ≤ j)

/-- Order on (index, key) pairs realising a stable sort by key: strictly
smaller key first, ties broken by the original index. -/
def pair_le {α : Type} [LinearOrder α] (q p : Nat × α) : Prop :=
  q.2 < p.2 ∨ (q.2 = p.2 ∧ q.1 ≤ p.1)

instance {α : Type} [LinearOrder α] : DecidableRel (pair_le (α := α)) :=
  fun q p => by unfold pair_le; infer_instance

/-- Insert a pair into a pair list, keeping earlier pairs that precede it in
the stable order. -/
def stable_ins {α : Type} [LinearOrder α] (p : Nat × α) :
    List (Nat × α) → List (Nat × α)
  | [] => [p]
  | q :: t => if pair_le q p then q :: stable_ins p t else p :: q :: t

/-- Insertion sort of (index, key) pairs in the stable order. -/
def stable_sort_pairs {α : Type} [LinearOrder α] :
    List (Nat × α) → List (Nat × α)
  | [] => []
  | p :: t => stable_ins p (stable_sort_pairs t)

/-- Model of `np.argsort(keys, kind='stable')` (`plot_figure3.py` line 85,
`plot_figure4_across_patients.py` line 85): the timsort/mergesort kinds are
stable, realised here by a stable insertion sort of the (index, key) pairs
ordered by key with ties broken by index. -/
def argsort_stable {α : Type} [LinearOrder α] (keys : List α) : List Nat :=
  (stable_sort_pairs ((List.range keys.length).zip keys)).map Prod.fst

/-- The stable pair order is total. -/
lemma pair_le_total {α : Type} [LinearOrder α] (q p : Nat × α) :
    pair_le q p ∨ pair_le p q := by
  rcases lt_trichotomy q.2 p.2 with h | h | h
  · exact Or.inl (Or.inl h)
  · rcases Nat.le_total q.1 p.1 with hn | hn
    · exact Or.inl (Or.inr ⟨h, hn⟩)
    · exact Or.inr (Or.inr ⟨h.symm, hn⟩)
  · exact Or.inr (Or.inl h)

/-- The stable pair order is transitive. -/
lemma pair_le_trans {α : Type} [LinearOrder α] {a b c : Nat × α}
    (h1 : pair_le a b) (h2 : pair_le b c) : pair_le a c := by
  rcases h1 with h1 | ⟨h1e, h1n⟩
  · rcases h2 with h2 | ⟨h2e, _⟩
    · exact Or.inl (lt_trans h1 h2)
    · exact Or.inl (h2e ▸ h1)
  · rcases h2 with h2 | ⟨h2e, h2n⟩
    · exact Or.inl (h1e ▸ h2)
    · exact Or.inr ⟨h1e.trans h2e, Nat.le_trans h1n h2n⟩

/-- Insertion yields a permutation of pushing the pair on top. -/
lemma stable_ins_perm {α : Type} [LinearOrder α] (p : Nat × α) :
    ∀ l : List (Nat × α), (stable_ins p l).Perm (p :: l) := by
  intro l
  induction l with
  | nil => exact List.Perm.refl _
  | cons q t ih =>
    unfold stable_ins
    by_cases hc : pair_le q p
    · rw [if_pos hc]
      exact (ih.cons q).trans (List.Perm.swap p q t)
    · rw [if_neg hc]

/-- The stable insertion sort permutes its input. -/
lemma stable_sort_pairs_perm {α : Type} [LinearOrder α] :
    ∀ l : List (Nat × α), (stable_sort_pairs l).Perm l := by
  intro l
  induction l with
  | nil => exact List.Perm.refl _
  | cons p t ih =>
    exact (stable_ins_perm p (stable_sort_pairs t)).trans (ih.cons p)

/-- Inserting into a list sorted in the stable order keeps it sorted. -/
lemma stable_ins_pairwise {α : Type} [LinearOrder α] (p : Nat × α) :
    ∀ l : List (Nat × α), l.Pairwise pair_le →
      (stable_ins p l).Pairwise pair_le := by
  intro l
  induction l with
  | nil => intro _; exact List.pairwise_singleton _ _
  | cons q t ih =>
    intro h
    rw [List.pairwise_cons] at h
    obtain ⟨hq, ht⟩ := h
    unfold stable_ins
    by_cases hc : pair_le q p
    · rw [if_pos hc]
      rw [List.pairwise_cons]
      refine ⟨?_, ih ht⟩
      intro x hx
      have hx2 : x ∈ p :: t := (stable_ins_perm p t).mem_iff.mp hx
      rcases List.mem_cons.mp hx2 with hx2 | hx2
      · exact hx2 ▸ hc
      · exact hq x hx2
    · rw [if_neg hc]
      have hpq : pair_le p q := (pair_le_total q p).resolve_left hc
      rw [List.pairwise_cons]
      refine ⟨?_, List.pairwise_cons.mpr ⟨hq, ht⟩⟩
      intro x hx
      rcases List.mem_cons.mp hx with hx | hx
      · exact hx ▸ hpq
      · exact pair_le_trans hpq (hq x hx)

/-- The stable insertion sort sorts in the stable order. -/
lemma stable_sort_pairs_pairwise {α : Type} [LinearOrder α] :
    ∀ l : List (Nat × α), (stable_sort_pairs l).Pairwise pair_le := by
  intro l
  induction l with
  | nil => exact List.Pairwise.nil
  | cons p t ih => exact stable_ins_pairwise p (stable_sort_pairs t) ih

/-- A member of the index-key zip is a genuine (position, value) pair. -/
lemma mem_zip_range_getD {α : Type} [Inhabited α] (keys : List α)
    (p : Nat × α) (h : p ∈ (List.range keys.length).zip keys) :
    keys.getD p.1 default = p.2 := by
  obtain ⟨i, hi⟩ := List.mem_iff_getElem?.mp h
  obtain ⟨p1, p2⟩ := p
  obtain ⟨h1, h2⟩ := List.getElem?_zip_eq_some.mp hi
  have hin : i < keys.length := by
    by_contra hc
    rw [List.getElem?_eq_none (by simpa using Nat.le_of_not_lt hc)] at h1
    exact Option.noConfusion h1
  rw [List.getElem?_range hin] at h1
  have : p1 = i := (Option.some.inj h1).symm
  subst this
  rw [List.getD_eq_getElem?_getD, h2]
  rfl

/-- C9 counterexample: the filename-ordering step calls `np.argsort` with the
default quicksort kind, whose contract (`sorts_by`) only promises a key-sorted
permutation.  On two filenames with the equal embedded numeric key 7, the
permutation that swaps them satisfies everything that sort guarantees while
reversing the relative order of the equal keys, so the claimed stability of
the first ordering step is not a property of the code. -/
theorem C9_numeric_sort_stability_counterexample :
    sorts_by ([7, 7] : List Int) [1, 0] ∧
    ¬ ties_in_order ([7, 7] : List Int) [1, 0] := by
  unfold sorts_by ties_in_order
  exact ⟨⟨by decide, by decide⟩, by decide⟩

/-- C9 (amended): only the outcome re-sort is a guaranteed stable sort: the
`kind='stable'` argsort returns a permutation of the patient indices along
which the keys are non-decreasing (with `NOT good_outcome` keys this puts
good-outcome patients first) and patients with equal keys keep their prior
relative order; the preceding numeric-key sort guarantees a key-sorted
permutation but not stability. -/
theorem C9_outcome_resort_stable {α : Type} [LinearOrder α] [Inhabited α]
    (keys : List α) :
    sorts_by keys (argsort_stable keys) ∧
    ties_in_order keys (argsort_stable keys) := by
  have hperm := stable_sort_pairs_perm ((List.range keys.length).zip keys)
  have hpw := stable_sort_pairs_pairwise ((List.range keys.length).zip keys)
  have hmemval : ∀ p ∈ stable_sort_pairs ((List.range keys.length).zip keys),
      keys.getD p.1 default = p.2 := by
    intro p hp
    exact mem_zip_range_getD keys p (hperm.mem_iff.mp hp)
  constructor
  · constructor
    · have h1 : (argsort_stable keys).Perm
          (((List.range keys.length).zip keys).map Prod.fst) :=
        hperm.map Prod.fst
      rw [List.map_fst_zip _ _ (by simp)] at h1
      exact h1
    · unfold argsort_stable
      rw [List.pairwise_map]
      apply List.Pairwise.imp_of_mem ?_ hpw
      intro a b ha hb hab
      rw [hmemval a ha, hmemval b hb]
      rcases hab with h | ⟨h, _⟩
      · exact le_of_lt h
      · exact le_of_eq h
  · unfold ties_in_order argsort_stable
    rw [List.pairwise_map]
    apply List.Pairwise.imp_of_mem ?_ hpw
    intro a b ha hb hab heq
    rw [hmemval a ha, hmemval b hb] at heq
    rcases hab with h | ⟨h2, hn⟩
    · exact absurd heq (ne_of_lt h)
    · exact hn
